import Mathlib

/-!
# LEAF: KPI directory search

A shallow embedding of the logic of `src/Header.js` (suggestion engine, input
handler, domain aggregator, sidebar slug) and `src/SearchResults.js` (search
engine, slug derivation), with the properties of the written specification
stated and settled over it.

Conventions of the embedding.

* A JavaScript string is a `Str`, a list of characters. `includes`, `trim` and
  the regular expression class `\s` are modelled below from their ECMAScript
  definitions.
* `String.prototype.toLowerCase` is a parameter `toLowerCase : Str → Str` of
  every function that calls it, so the general theorems hold whatever case
  mapping the host applies. `asciiLowerCase` is its restriction to ASCII input
  and is used where a concrete string is evaluated.
* `forEach` loops that push onto an array are left folds whose accumulator is
  the array; `push` appends at the end.
* Code that can raise (`toLowerCase` called on a value that is not a string, a
  property read on `undefined`) runs in `Except JSError`.
-/

namespace Leaf

/-! ## Strings -/

/-- A JavaScript string value. -/
abbrev Str := List Char

/-- ECMAScript `WhiteSpace` and `LineTerminator` code points: what `\s` matches
and what `trim` strips. -/
def isWhiteSpace (c : Char) : Bool :=
  let n := c.toNat
  n == 9 || n == 10 || n == 11 || n == 12 || n == 13 || n == 32 || n == 160 ||
  n == 5760 || (8192 ≤ n && n ≤ 8202) || n == 8232 || n == 8233 || n == 8239 ||
  n == 8287 || n == 12288 || n == 65279

/-- Model of `String.prototype.toLowerCase` on ASCII input: `A`..`Z` are mapped
to `a`..`z`, every other character is left as it is. -/
def asciiLowerCase (s : Str) : Str := s.map Char.toLower

/-- Model of `String.prototype.includes`: does `searchString` occur in `s` as a
contiguous run, starting at some position. -/
def includes : Str → Str → Bool
  | [], searchString => searchString.isEmpty
  | c :: s, searchString => searchString.isPrefixOf (c :: s) || includes s searchString

/-- Model of `String.prototype.trim`: white space is stripped at both ends. -/
def trim (s : Str) : Str :=
  ((s.dropWhile isWhiteSpace).reverse.dropWhile isWhiteSpace).reverse

/-- The scan behind `s.replace(/\s+/g, "-")`, from the left. `inMatch` tells
that the character before was white space, so a match of `\s+` is in progress:
the match is greedy and takes every following white space character, and the
hyphen is written once, where the match starts. -/
def replaceWhiteSpaceRunsFrom : Bool → Str → Str
  | _, [] => []
  | inMatch, c :: s =>
    if isWhiteSpace c then
      if inMatch then replaceWhiteSpaceRunsFrom true s
      else '-' :: replaceWhiteSpaceRunsFrom true s
    else
      c :: replaceWhiteSpaceRunsFrom false s

/-- Model of `s.replace(/\s+/g, "-")`: each maximal run of white space is one
match of `\s+` and is replaced by one hyphen, everything else is kept. -/
def replaceWhiteSpaceRuns (s : Str) : Str := replaceWhiteSpaceRunsFrom false s

/-- Model of `Array.prototype.push` of a single element. -/
def push {α : Type} (array : List α) (x : α) : List α := array ++ [x]

/-- Model of `[...new Set(results)]`: a set keeps its elements in insertion
order and adding a value already present changes nothing. -/
def newSet (results : List Str) : List Str :=
  results.foldl (fun set x => if x ∈ set then set else push set x) []

/-! ## Values and errors -/

/-- The JavaScript values a JSON field can hold where the code tests its type. -/
inductive JSValue where
  | undefined
  | null
  | boolean (b : Bool)
  | number (n : Int)
  | string (s : Str)
  deriving DecidableEq, Repr

/-- Errors raised by the host. -/
inductive JSError where
  | TypeError
  deriving DecidableEq, Repr

deriving instance DecidableEq for Except

/-- Model of the `typeof` operator. -/
def typeof : JSValue → Str
  | .undefined => "undefined".toList
  | .null => "object".toList
  | .boolean _ => "boolean".toList
  | .number _ => "number".toList
  | .string _ => "string".toList

/-- Model of the method call `v.toLowerCase()` on an arbitrary value: only a
string has the method, for any other value the call raises a `TypeError`. -/
def JSValue.toLowerCase (toLowerCase : Str → Str) : JSValue → Except JSError Str
  | .string s => .ok (toLowerCase s)
  | _ => .error .TypeError

/-! ## Data model

Modelled from the spec: the dataset `kpi_output.json` is not part of the
sources. The record shapes follow the data model of the specification, the
field names are those the source reads (`domain.domain`, `industry.industry`,
`kpi.kpi`, `usecaseObj.usecase`, ...). The name of a use case is an arbitrary
value, since the source tests its type before use. -/

/-- Modelled from the spec: a KPI record of the dataset. -/
structure KPI where
  kpi : Str
  formula : Str
  explanation : Str
  deriving DecidableEq, Repr

/-- Modelled from the spec: a use-case record of the dataset. -/
structure UseCase where
  usecase : JSValue
  definitions : Str
  description : Str
  business_impact : Str
  deriving DecidableEq, Repr

/-- Modelled from the spec: a subdepartment record of the dataset. -/
structure Subdepartment where
  subdepartment : Str
  kpicollection : List KPI
  usecases : List UseCase
  deriving DecidableEq, Repr

/-- Modelled from the spec: a department record of the dataset. -/
structure Department where
  department : Str
  subdepartments : List Subdepartment
  deriving DecidableEq, Repr

/-- Modelled from the spec: a classification record of the dataset. -/
structure Classification where
  departments : List Department
  deriving DecidableEq, Repr

/-- Modelled from the spec: an industry record of the dataset. -/
structure Industry where
  industry : Str
  classifications : List Classification
  deriving DecidableEq, Repr

/-- Modelled from the spec: a domain record of the dataset. -/
structure Domain where
  domain : Str
  industries : List Industry
  deriving DecidableEq, Repr

/-! ## Header.js: suggestion engine -/

/-- The function `getSuggestions` of `Header.js`, lines 29-63, over the dataset
`kpiData`. -/
def getSuggestions (toLowerCase : Str → Str) (kpiData : List Domain) (query : Str) :
    List Str :=
  let lowercasedQuery := toLowerCase query
  let results : List Str := []
  let results :=
    kpiData.foldl (fun results domain =>
      domain.industries.foldl (fun results industry =>
        let results :=
          if includes (toLowerCase industry.industry) lowercasedQuery then
            push results industry.industry
          else results
        industry.classifications.foldl (fun results classification =>
          classification.departments.foldl (fun results department =>
            let results :=
              if includes (toLowerCase department.department) lowercasedQuery then
                push results department.department
              else results
            department.subdepartments.foldl (fun results subdepartment =>
              let results :=
                if includes (toLowerCase subdepartment.subdepartment) lowercasedQuery then
                  push results subdepartment.subdepartment
                else results
              subdepartment.kpicollection.foldl (fun results kpi =>
                if includes (toLowerCase kpi.kpi) lowercasedQuery then
                  push results kpi.kpi
                else results) results) results) results) results) results) results
  newSet results

/-- The part of the component state of `Header` that the input handler writes. -/
structure HeaderState where
  searchQuery : Str
  suggestions : List Str
  deriving DecidableEq, Repr

/-- The function `handleInputChange` of `Header.js`, lines 17-27: the state
after the input event carrying `query`. A string is truthy when it is not
empty. -/
def handleInputChange (toLowerCase : Str → Str) (kpiData : List Domain) (query : Str) :
    HeaderState :=
  if trim query ≠ [] then
    { searchQuery := query, suggestions := getSuggestions toLowerCase kpiData query }
  else
    { searchQuery := query, suggestions := [] }

/-! ## Header.js: domain aggregator

`aggregated` is an ordinary object created by the literal `{}`: its prototype
is `Object.prototype`. A property read finds an own property first and an
inherited one otherwise; `Object.entries` lists the own properties with the
array-index keys first, in ascending numeric order, followed by the other
string keys in the order of their creation. -/

/-- The value stored under a domain name: `{ industries: [...] }`. -/
structure Group where
  industries : List Industry
  deriving DecidableEq, Repr

/-- One element of the array `aggregateData` returns. -/
structure Category where
  domain : Str
  industries : List Industry
  deriving DecidableEq, Repr

/-- The own properties of the object `aggregated`, in the order of their
creation. -/
abbrev JSObject := List (Str × Group)

/-- The property names every ordinary object inherits from `Object.prototype`.
Each of them holds a function, or for `__proto__` the prototype object: a
truthy value that has no property `industries`. -/
def objectPrototypeKeys : List Str :=
  ["constructor".toList, "__defineGetter__".toList, "__defineSetter__".toList,
   "hasOwnProperty".toList, "__lookupGetter__".toList, "__lookupSetter__".toList,
   "isPrototypeOf".toList, "propertyIsEnumerable".toList, "toString".toList,
   "valueOf".toList, "__proto__".toList, "toLocaleString".toList]

/-- The result of the property read `aggregated[key]`. -/
inductive Lookup where
  | own (group : Group)
  | inherited
  | undefined
  deriving DecidableEq, Repr

/-- The own property stored under `key`, if there is one. -/
def JSObject.getOwn : JSObject → Str → Option Group
  | [], _ => none
  | (k, g) :: rest, key => if k = key then some g else JSObject.getOwn rest key

/-- Model of the property read `aggregated[key]`. -/
def JSObject.get (aggregated : JSObject) (key : Str) : Lookup :=
  match aggregated.getOwn key with
  | some group => .own group
  | none => if key ∈ objectPrototypeKeys then .inherited else .undefined

/-- Writes the own property `key`: an existing property keeps its place, a new
one is created after all existing ones. -/
def JSObject.set : JSObject → Str → Group → JSObject
  | [], key, group => [(key, group)]
  | (k, g) :: rest, key, group =>
    if k = key then (k, group) :: rest else (k, g) :: JSObject.set rest key group

/-- Truthiness of a property read: an object or a function is truthy,
`undefined` is not. -/
def Lookup.truthy : Lookup → Bool
  | .own _ => true
  | .inherited => true
  | .undefined => false

/-- The array index a property key denotes, if any: the key is the canonical
decimal form of an integer between 0 and 2^32 - 2. -/
def arrayIndex? (key : Str) : Option Nat :=
  if key ≠ [] ∧ key.all Char.isDigit = true ∧ (key.head? ≠ some '0' ∨ key.length = 1) then
    let n := key.foldl (fun n c => 10 * n + (c.toNat - 48)) 0
    if n < 4294967295 then some n else none
  else none

/-- The order of two array-index keys: by numeric value. -/
def keyLE (a b : Str) : Prop :=
  (arrayIndex? a).getD 0 ≤ (arrayIndex? b).getD 0

instance : DecidableRel keyLE := fun a b =>
  inferInstanceAs (Decidable ((arrayIndex? a).getD 0 ≤ (arrayIndex? b).getD 0))

/-- Model of the order of own property keys of an ordinary object: array-index
keys first in ascending numeric order, then the other keys in creation
order. -/
def keyOrder (keys : List Str) : List Str :=
  (keys.filter (fun key => (arrayIndex? key).isSome)).insertionSort keyLE ++
    keys.filter (fun key => !(arrayIndex? key).isSome)

/-- Model of `Object.entries`: for each own property key, in key order, the
pair of the key and its value. -/
def objectEntries (o : JSObject) : List (Str × Group) :=
  (keyOrder (o.map Prod.fst)).filterMap (fun key =>
    (o.getOwn key).map (fun group => (key, group)))

/-- The callback of `data.forEach` in `aggregateData`, `Header.js`, lines
84-89. The array `industries` of a group is mutated in place by
`push(...entry.industries)`; reading `industries` of an inherited value gives
`undefined`, and the call of `push` on it raises. -/
def aggregateEntry (aggregated : JSObject) (entry : Domain) : Except JSError JSObject := do
  let aggregated :=
    if !(aggregated.get entry.domain).truthy then
      aggregated.set entry.domain { industries := [] }
    else aggregated
  match aggregated.get entry.domain with
  | .own group =>
    pure (aggregated.set entry.domain { industries := group.industries ++ entry.industries })
  | .inherited => throw JSError.TypeError
  | .undefined => throw JSError.TypeError

/-- The function `aggregateData` of `Header.js`, lines 81-95. -/
def aggregateData (data : List Domain) : Except JSError (List Category) := do
  let aggregated : JSObject := []
  let aggregated ← data.foldlM aggregateEntry aggregated
  pure ((objectEntries aggregated).map fun (domain, group) =>
    { domain := domain, industries := group.industries })

/-- The slug of the sidebar link in `Header.js`, lines 150-152. -/
def sidebarSlug (toLowerCase : Str → Str) (industry : Str) : Str :=
  replaceWhiteSpaceRuns (toLowerCase industry)

/-! ## SearchResults.js: search engine -/

/-- A matched KPI: the spread `{ ...kpi, subdepartment: ... }`. -/
structure MatchedKPI where
  kpi : Str
  formula : Str
  explanation : Str
  subdepartment : Str
  deriving DecidableEq, Repr

/-- One element of the array `results` built by `fetchData`. -/
structure IndustryResult where
  industry : Str
  matchedKPIs : List MatchedKPI
  matchedUseCases : List UseCase
  deriving DecidableEq, Repr

/-- The test of `SearchResults.js`, lines 42-47, with its short-circuit `&&`:
the method call is evaluated only when the type test holds. -/
def usecaseMatches (toLowerCase : Str → Str) (searchQuery : Str) (usecaseObj : UseCase) :
    Except JSError Bool :=
  if typeof usecaseObj.usecase = "string".toList then do
    let lowered ← usecaseObj.usecase.toLowerCase toLowerCase
    pure (includes lowered (toLowerCase searchQuery))
  else
    pure false

/-- The function `fetchData` of `SearchResults.js`, lines 16-67: the value it
passes to `setFilteredResults`. -/
def fetchData (toLowerCase : Str → Str) (data : List Domain) (searchQuery : Str) :
    Except JSError (List IndustryResult) := do
  let results : List IndustryResult := []
  data.foldlM (fun results domain =>
    domain.industries.foldlM (fun results industry => do
      let matchedKPIs : List MatchedKPI := []
      let matchedUseCases : List UseCase := []
      let (matchedKPIs, matchedUseCases) ←
        industry.classifications.foldlM (fun matched classification =>
          classification.departments.foldlM (fun matched department =>
            department.subdepartments.foldlM
              (fun (matched : List MatchedKPI × List UseCase) subdepartment => do
                let matchedKPIs :=
                  subdepartment.kpicollection.foldl (fun matchedKPIs kpi =>
                    if includes (toLowerCase kpi.kpi) (toLowerCase searchQuery) then
                      push matchedKPIs
                        { kpi := kpi.kpi, formula := kpi.formula,
                          explanation := kpi.explanation,
                          subdepartment := subdepartment.subdepartment }
                    else matchedKPIs) matched.1
                let matchedUseCases ←
                  subdepartment.usecases.foldlM (fun matchedUseCases usecaseObj => do
                    if (← usecaseMatches toLowerCase searchQuery usecaseObj) then
                      pure (push matchedUseCases usecaseObj)
                    else pure matchedUseCases) matched.2
                pure (matchedKPIs, matchedUseCases))
              matched) matched) (matchedKPIs, matchedUseCases)
      if matchedKPIs.length > 0 ∨ matchedUseCases.length > 0 then
        pure (push results
          { industry := industry.industry, matchedKPIs := matchedKPIs,
            matchedUseCases := matchedUseCases })
      else pure results) results) results

/-- The function `getMainTopic` of `SearchResults.js`, lines 92-94. -/
def getMainTopic (toLowerCase : Str → Str) (industry : Str) : Str :=
  replaceWhiteSpaceRuns (toLowerCase industry)

/-! ## Sample data -/

/-- A KPI named `name` with empty descriptive fields. -/
def mkKPI (name : String) : KPI := { kpi := name.toList, formula := [], explanation := [] }

/-- A use case named by the value `name` with empty descriptive fields. -/
def mkUseCase (name : JSValue) : UseCase :=
  { usecase := name, definitions := [], description := [], business_impact := [] }

/-- The example dataset of the specification: Finance, Banking, one department
Lending, subdepartment Retail, KPI Net Interest Margin; with a use case whose
name is the number 123 added. -/
def sampleData : List Domain :=
  [{ domain := "Finance".toList,
     industries :=
      [{ industry := "Banking".toList,
         classifications :=
          [{ departments :=
              [{ department := "Lending".toList,
                 subdepartments :=
                  [{ subdepartment := "Retail".toList,
                     kpicollection := [mkKPI "Net Interest Margin"],
                     usecases := [mkUseCase (.number 123)] }] }] }] }] }]

/-! ## The wording of the specification -/

/-- The test the source applies to a name: its lower-cased form includes the
lower-cased query. -/
def matchesQuery (toLowerCase : Str → Str) (query name : Str) : Bool :=
  includes (toLowerCase name) (toLowerCase query)

/-- From the specification: `name` contains `query` as a case-insensitive
substring, that is the lower-cased query is a contiguous part of the lower-cased
name. -/
def ContainsIgnoreCase (toLowerCase : Str → Str) (name query : Str) : Prop :=
  toLowerCase query <:+: toLowerCase name

instance (toLowerCase : Str → Str) (name query : Str) :
    Decidable (ContainsIgnoreCase toLowerCase name query) :=
  inferInstanceAs (Decidable (toLowerCase query <:+: toLowerCase name))

/-- From the specification: a subdepartment contributes its name followed by
the names of its KPIs. -/
def subdepartmentLabels (subdepartment : Subdepartment) : List Str :=
  subdepartment.subdepartment :: subdepartment.kpicollection.map (fun kpi => kpi.kpi)

/-- From the specification: a department contributes its name, then the labels
of its subdepartments. -/
def departmentLabels (department : Department) : List Str :=
  department.department :: department.subdepartments.flatMap subdepartmentLabels

/-- From the specification: an industry contributes its name, then the labels
of the departments of its classifications. -/
def industryLabels (industry : Industry) : List Str :=
  industry.industry ::
    industry.classifications.flatMap (fun classification =>
      classification.departments.flatMap departmentLabels)

/-- From the specification: every industry, department, subdepartment and KPI
name of the dataset, in traversal order. -/
def traversalLabels (data : List Domain) : List Str :=
  data.flatMap (fun domain => domain.industries.flatMap industryLabels)

/-- From the specification: `s` is the name of some industry, department,
subdepartment or KPI of the dataset. -/
def IsLabel (data : List Domain) (s : Str) : Prop :=
  ∃ domain ∈ data, ∃ industry ∈ domain.industries,
    s = industry.industry ∨
    ∃ classification ∈ industry.classifications,
      ∃ department ∈ classification.departments,
        s = department.department ∨
        ∃ subdepartment ∈ department.subdepartments,
          s = subdepartment.subdepartment ∨
          ∃ kpi ∈ subdepartment.kpicollection, s = kpi.kpi

/-- The subdepartments of an industry, in traversal order. -/
def industrySubdepartments (industry : Industry) : List Subdepartment :=
  industry.classifications.flatMap (fun classification =>
    classification.departments.flatMap (fun department => department.subdepartments))

/-- From the specification: `s` is the name of some use case of the dataset. -/
def IsUseCaseName (data : List Domain) (s : Str) : Prop :=
  ∃ domain ∈ data, ∃ industry ∈ domain.industries,
    ∃ subdepartment ∈ industrySubdepartments industry,
      ∃ usecaseObj ∈ subdepartment.usecases, usecaseObj.usecase = JSValue.string s

/-- From the specification: the list with every occurrence after the first of
each string removed. The element at position `i` stays exactly when it does not
occur among the first `i` elements. -/
def removeLaterOccurrences (xs : List Str) : List Str :=
  (xs.enum.filter (fun p => decide (p.2 ∉ xs.take p.1))).map Prod.snd

/-- The matched-KPI record built from a KPI and the subdepartment that owns
it: every field of the KPI, and the name of the subdepartment. -/
def annotate (subdepartment : Subdepartment) (kpi : KPI) : MatchedKPI :=
  { kpi := kpi.kpi, formula := kpi.formula, explanation := kpi.explanation,
    subdepartment := subdepartment.subdepartment }

/-- From the specification: the KPIs of the subdepartments of an industry whose
name contains the query, in traversal order, each annotated with its owning
subdepartment. -/
def industryMatchedKPIs (toLowerCase : Str → Str) (query : Str) (industry : Industry) :
    List MatchedKPI :=
  (industrySubdepartments industry).flatMap (fun subdepartment =>
    (subdepartment.kpicollection.filter
      (fun kpi => matchesQuery toLowerCase query kpi.kpi)).map (annotate subdepartment))

/-- From the specification: the name of the use case is a string and contains
the query. -/
def usecaseNameContains (toLowerCase : Str → Str) (query : Str) (usecaseObj : UseCase) : Bool :=
  match usecaseObj.usecase with
  | .string s => matchesQuery toLowerCase query s
  | _ => false

/-- From the specification: the use-case records of the subdepartments of an
industry whose name is a string containing the query, in traversal order. -/
def industryMatchedUseCases (toLowerCase : Str → Str) (query : Str) (industry : Industry) :
    List UseCase :=
  (industrySubdepartments industry).flatMap (fun subdepartment =>
    subdepartment.usecases.filter (usecaseNameContains toLowerCase query))

/-- From the specification: the industry has at least one KPI whose name
contains the query or at least one use case whose name is a string containing
the query. -/
def HasMatch (toLowerCase : Str → Str) (query : Str) (industry : Industry) : Prop :=
  ∃ subdepartment ∈ industrySubdepartments industry,
    (∃ kpi ∈ subdepartment.kpicollection, ContainsIgnoreCase toLowerCase kpi.kpi query) ∨
    (∃ usecaseObj ∈ subdepartment.usecases, ∃ s, usecaseObj.usecase = JSValue.string s ∧
      ContainsIgnoreCase toLowerCase s query)

/-- The industries of the dataset in traversal order: domain by domain,
industry by industry. -/
def allIndustries (data : List Domain) : List Industry :=
  data.flatMap (fun domain => domain.industries)

/-- From the specification: the result record of an industry. -/
def industryResult (toLowerCase : Str → Str) (query : Str) (industry : Industry) :
    IndustryResult :=
  { industry := industry.industry,
    matchedKPIs := industryMatchedKPIs toLowerCase query industry,
    matchedUseCases := industryMatchedUseCases toLowerCase query industry }

/-- From the specification: the search result lists, in traversal order, the
result record of every industry that has a matched KPI or a matched use
case. -/
def searchResult (toLowerCase : Str → Str) (data : List Domain) (query : Str) :
    List IndustryResult :=
  ((allIndustries data).filter (fun industry =>
    decide (industryMatchedKPIs toLowerCase query industry ≠ [] ∨
      industryMatchedUseCases toLowerCase query industry ≠ []))).map
    (industryResult toLowerCase query)

/-- From the specification: the distinct domain names of the dataset in the
order of their first occurrence. -/
def domainNames (data : List Domain) : List Str :=
  removeLaterOccurrences (data.map (fun entry => entry.domain))

/-- From the specification: the concatenation, in record order, of the
industries of all domain records bearing the name. -/
def groupIndustries (data : List Domain) (name : Str) : List Industry :=
  (data.filter (fun entry => decide (entry.domain = name))).flatMap
    (fun entry => entry.industries)

/-- From the specification: the group of a domain name. -/
def categoryOf (data : List Domain) (name : Str) : Category :=
  { domain := name, industries := groupIndustries data name }

/-- From the specification: one group per distinct domain name, in the order
of first occurrence. -/
def firstSeenGroups (data : List Domain) : List Category :=
  (domainNames data).map (categoryOf data)

/-- One group per distinct domain name, in the key order of the object that
collects them. -/
def keyOrderGroups (data : List Domain) : List Category :=
  (keyOrder (domainNames data)).map (categoryOf data)

/-- The object that holds, for each of `names` in this order of creation, the
group with the industries `v name`. -/
def tabulate (names : List Str) (v : Str → List Industry) : JSObject :=
  names.map (fun name => (name, { industries := v name }))

/-- From the specification, as a test: the industry has a KPI whose name
contains the query or a use case whose name is a string containing it. -/
def hasMatch (toLowerCase : Str → Str) (query : Str) (industry : Industry) : Bool :=
  (industrySubdepartments industry).any (fun subdepartment =>
    subdepartment.kpicollection.any (fun kpi => matchesQuery toLowerCase query kpi.kpi) ||
    subdepartment.usecases.any (usecaseNameContains toLowerCase query))

/-- An industry without classifications, named `name`. -/
def mkIndustry (name : String) : Industry := { industry := name.toList, classifications := [] }

/-- A dataset whose first domain record is named 2 and whose second is
named 1. -/
def numericNames : List Domain :=
  [{ domain := "2".toList, industries := [mkIndustry "Banking"] },
   { domain := "1".toList, industries := [mkIndustry "Retail"] }]

/-- A dataset with one domain record, named constructor. -/
def inheritedName : List Domain :=
  [{ domain := "constructor".toList, industries := [mkIndustry "Banking"] }]

/-- A dataset in which two subdepartments of one industry, Retail and
Corporate, each hold a KPI named Churn Rate. -/
def repeatedKpi : List Domain :=
  [{ domain := "Finance".toList,
     industries :=
      [{ industry := "Banking".toList,
         classifications :=
          [{ departments :=
              [{ department := "Lending".toList,
                 subdepartments :=
                  [{ subdepartment := "Retail".toList,
                     kpicollection := [mkKPI "Churn Rate"], usecases := [] },
                   { subdepartment := "Corporate".toList,
                     kpicollection := [mkKPI "Churn Rate"], usecases := [] }] }] }] }] }]

/-- A dataset in which two subdepartments of one industry, one under the
department Lending and one under the department Cards, are both named General
and each hold a KPI named Churn Rate. -/
def sameSubdepartmentName : List Domain :=
  [{ domain := "Finance".toList,
     industries :=
      [{ industry := "Banking".toList,
         classifications :=
          [{ departments :=
              [{ department := "Lending".toList,
                 subdepartments :=
                  [{ subdepartment := "General".toList,
                     kpicollection := [mkKPI "Churn Rate"], usecases := [] }] },
               { department := "Cards".toList,
                 subdepartments :=
                  [{ subdepartment := "General".toList,
                     kpicollection := [mkKPI "Churn Rate", mkKPI "Spend"],
                     usecases := [] }] }] }] }] }]

/-! ## Strings: lemmas -/

theorem includes_iff (s t : Str) : includes s t = true ↔ t <:+: s := by
  induction s with
  | nil => simp [includes, List.isEmpty_iff]
  | cons c s ih =>
    simp only [includes, Bool.or_eq_true, ih, List.isPrefixOf_iff_prefix, List.infix_cons_iff]

theorem matchesQuery_iff (toLowerCase : Str → Str) (query name : Str) :
    matchesQuery toLowerCase query name = true ↔ ContainsIgnoreCase toLowerCase name query :=
  includes_iff _ _

theorem mem_newSet_fold (xs set : List Str) (s : Str) :
    s ∈ xs.foldl (fun set x => if x ∈ set then set else push set x) set ↔ s ∈ set ∨ s ∈ xs := by
  induction xs generalizing set with
  | nil => simp
  | cons x xs ih =>
    simp only [List.foldl_cons, ih, List.mem_cons]
    by_cases hx : x ∈ set
    · simp only [hx, if_true]
      constructor
      · rintro (h | h)
        · exact Or.inl h
        · exact Or.inr (Or.inr h)
      · rintro (h | h | h)
        · exact Or.inl h
        · exact Or.inl (h ▸ hx)
        · exact Or.inr h
    · simp only [hx, if_false, push, List.mem_append, List.mem_singleton]
      tauto

theorem mem_newSet (xs : List Str) (s : Str) : s ∈ newSet xs ↔ s ∈ xs := by
  simp [newSet, mem_newSet_fold]

theorem newSet_append_singleton (xs : List Str) (x : Str) :
    newSet (xs ++ [x]) = if x ∈ xs then newSet xs else newSet xs ++ [x] := by
  have h : newSet (xs ++ [x]) = if x ∈ newSet xs then newSet xs else push (newSet xs) x := by
    simp [newSet, List.foldl_append]
  rw [h]
  simp only [mem_newSet, push]

theorem removeLaterOccurrences_append_singleton (xs : List Str) (x : Str) :
    removeLaterOccurrences (xs ++ [x]) =
      if x ∈ xs then removeLaterOccurrences xs else removeLaterOccurrences xs ++ [x] := by
  unfold removeLaterOccurrences
  rw [List.enum_append, List.filter_append, List.map_append]
  have h1 : (xs.enum.filter (fun p => decide (p.2 ∉ (xs ++ [x]).take p.1))) =
      (xs.enum.filter (fun p => decide (p.2 ∉ xs.take p.1))) := by
    apply List.filter_congr
    intro p hp
    have hlt : p.1 < xs.length := (List.mem_enum (x := p.2) (i := p.1) hp).1
    rw [List.take_append_of_le_length (Nat.le_of_lt hlt)]
  rw [h1]
  by_cases hx : x ∈ xs <;> simp [List.enumFrom, hx]

theorem newSet_eq_removeLaterOccurrences (xs : List Str) :
    newSet xs = removeLaterOccurrences xs := by
  induction xs using List.reverseRecOn with
  | nil => rfl
  | append_singleton xs x ih =>
    rw [newSet_append_singleton, removeLaterOccurrences_append_singleton, ih]

theorem newSet_nodup (xs : List Str) : (newSet xs).Nodup := by
  induction xs using List.reverseRecOn with
  | nil => simp [newSet]
  | append_singleton xs x ih =>
    rw [newSet_append_singleton]
    by_cases hx : x ∈ xs
    · simpa [hx] using ih
    · simp only [hx, if_false]
      refine List.Nodup.append ih (List.nodup_singleton x) ?_
      simp only [List.Disjoint, mem_newSet, List.mem_singleton]
      intro a ha hax
      exact hx (hax ▸ ha)

/-! ## Suggestion engine: lemmas -/

theorem foldl_eq_append_flatMap {α β : Type} (f : List β → α → List β) (g : α → List β)
    (h : ∀ acc x, f acc x = acc ++ g x) (l : List α) (acc : List β) :
    l.foldl f acc = acc ++ l.flatMap g := by
  induction l generalizing acc with
  | nil => simp
  | cons x l ih => simp [List.foldl_cons, h, ih, List.flatMap_cons, List.append_assoc]

theorem filter_flatMap {α β : Type} (p : β → Bool) (g : α → List β) (l : List α) :
    (l.flatMap g).filter p = l.flatMap (fun x => (g x).filter p) := by
  induction l with
  | nil => rfl
  | cons x l ih => simp [List.flatMap_cons, List.filter_append, ih]

theorem getSuggestions_eq (toLowerCase : Str → Str) (kpiData : List Domain) (query : Str) :
    getSuggestions toLowerCase kpiData query =
      newSet ((traversalLabels kpiData).filter (matchesQuery toLowerCase query)) := by
  unfold getSuggestions traversalLabels
  simp only [filter_flatMap]
  congr 1
  rw [foldl_eq_append_flatMap _
    (fun domain : Domain =>
      domain.industries.flatMap (fun industry =>
        (industryLabels industry).filter (matchesQuery toLowerCase query)))]
  · simp
  intro acc domain
  refine foldl_eq_append_flatMap _ _ (fun acc industry => ?_) _ _
  rw [foldl_eq_append_flatMap _
    (fun classification : Classification =>
      (classification.departments.flatMap departmentLabels).filter
        (matchesQuery toLowerCase query))]
  · unfold industryLabels
    rw [List.filter_cons, filter_flatMap]
    by_cases h : includes (toLowerCase industry.industry) (toLowerCase query) = true <;>
      simp [matchesQuery, push, h]
  intro acc classification
  simp only [filter_flatMap]
  refine foldl_eq_append_flatMap _ _ (fun acc department => ?_) _ _
  rw [foldl_eq_append_flatMap _
    (fun subdepartment : Subdepartment =>
      (subdepartmentLabels subdepartment).filter (matchesQuery toLowerCase query))]
  · unfold departmentLabels
    rw [List.filter_cons, filter_flatMap]
    by_cases h : includes (toLowerCase department.department) (toLowerCase query) = true <;>
      simp [matchesQuery, push, h]
  intro acc subdepartment
  rw [foldl_eq_append_flatMap _
    (fun kpi : KPI => if matchesQuery toLowerCase query kpi.kpi then [kpi.kpi] else [])]
  · unfold subdepartmentLabels
    have hk : ∀ l : List KPI,
        l.flatMap (fun kpi : KPI =>
          if matchesQuery toLowerCase query kpi.kpi then [kpi.kpi] else []) =
        (l.map (fun kpi => kpi.kpi)).filter (matchesQuery toLowerCase query) := by
      intro l
      induction l with
      | nil => rfl
      | cons k l ih =>
        by_cases hm : matchesQuery toLowerCase query k.kpi = true <;>
          simp [List.flatMap_cons, List.filter_cons, hm, ih]
    rw [List.filter_cons, hk]
    by_cases h : includes (toLowerCase subdepartment.subdepartment) (toLowerCase query) = true <;>
      simp [matchesQuery, push, h]
  intro acc kpi
  by_cases h : includes (toLowerCase kpi.kpi) (toLowerCase query) = true <;>
    simp [matchesQuery, push, h]

theorem mem_traversalLabels (data : List Domain) (s : Str) :
    s ∈ traversalLabels data ↔ IsLabel data s := by
  simp only [traversalLabels, industryLabels, departmentLabels, subdepartmentLabels, IsLabel,
    List.mem_flatMap, List.mem_cons, List.mem_map]
  constructor
  · rintro ⟨d, hd, i, hi, h⟩
    refine ⟨d, hd, i, hi, ?_⟩
    rcases h with h | ⟨c, hc, dep, hdep, h⟩
    · exact Or.inl h
    refine Or.inr ⟨c, hc, dep, hdep, ?_⟩
    rcases h with h | ⟨sub, hsub, h⟩
    · exact Or.inl h
    refine Or.inr ⟨sub, hsub, ?_⟩
    rcases h with h | ⟨k, hk, h⟩
    · exact Or.inl h
    · exact Or.inr ⟨k, hk, h.symm⟩
  · rintro ⟨d, hd, i, hi, h⟩
    refine ⟨d, hd, i, hi, ?_⟩
    rcases h with h | ⟨c, hc, dep, hdep, h⟩
    · exact Or.inl h
    refine Or.inr ⟨c, hc, dep, hdep, ?_⟩
    rcases h with h | ⟨sub, hsub, h⟩
    · exact Or.inl h
    refine Or.inr ⟨sub, hsub, ?_⟩
    rcases h with h | ⟨k, hk, h⟩
    · exact Or.inl h
    · exact Or.inr ⟨k, hk, h.symm⟩

theorem mem_getSuggestions (toLowerCase : Str → Str) (data : List Domain) (query s : Str) :
    s ∈ getSuggestions toLowerCase data query ↔
      IsLabel data s ∧ ContainsIgnoreCase toLowerCase s query := by
  rw [getSuggestions_eq, mem_newSet, List.mem_filter, mem_traversalLabels, matchesQuery_iff]

/-! ## Search engine: lemmas -/

theorem foldlM_eq_ok_append {α β : Type} (f : List β → α → Except JSError (List β))
    (g : α → List β) (h : ∀ acc x, f acc x = .ok (acc ++ g x)) (l : List α) (acc : List β) :
    l.foldlM f acc = .ok (acc ++ l.flatMap g) := by
  induction l generalizing acc with
  | nil => simp [pure, Except.pure]
  | cons x l ih =>
    simp [List.foldlM_cons, h, ih, List.flatMap_cons, List.append_assoc, bind, Except.bind]

theorem foldlM_eq_ok_append_pair {α β γ : Type}
    (f : List β × List γ → α → Except JSError (List β × List γ))
    (g₁ : α → List β) (g₂ : α → List γ)
    (h : ∀ acc x, f acc x = .ok (acc.1 ++ g₁ x, acc.2 ++ g₂ x)) (l : List α)
    (acc : List β × List γ) :
    l.foldlM f acc = .ok (acc.1 ++ l.flatMap g₁, acc.2 ++ l.flatMap g₂) := by
  induction l generalizing acc with
  | nil => simp [pure, Except.pure]
  | cons x l ih =>
    simp [List.foldlM_cons, h, ih, List.flatMap_cons, List.append_assoc, bind, Except.bind]

theorem usecaseMatches_eq (toLowerCase : Str → Str) (searchQuery : Str) (usecaseObj : UseCase) :
    usecaseMatches toLowerCase searchQuery usecaseObj =
      .ok (usecaseNameContains toLowerCase searchQuery usecaseObj) := by
  unfold usecaseMatches usecaseNameContains
  cases h : usecaseObj.usecase <;>
    simp [typeof, JSValue.toLowerCase, matchesQuery, bind, Except.bind, pure, Except.pure]

theorem flatMap_ite_singleton {α β : Type} (p : α → Bool) (r : α → β) (l : List α) :
    l.flatMap (fun x => if p x then [r x] else []) = (l.filter p).map r := by
  induction l with
  | nil => rfl
  | cons x l ih => by_cases hp : p x = true <;> simp [List.flatMap_cons, List.filter_cons, hp, ih]

theorem industrySubdepartments_flatMap {β : Type} (industry : Industry)
    (g : Subdepartment → List β) :
    (industrySubdepartments industry).flatMap g =
      industry.classifications.flatMap (fun classification =>
        classification.departments.flatMap (fun department =>
          department.subdepartments.flatMap g)) := by
  simp [industrySubdepartments, List.flatMap_assoc]

theorem fetchData_eq (toLowerCase : Str → Str) (data : List Domain) (searchQuery : Str) :
    fetchData toLowerCase data searchQuery = .ok (searchResult toLowerCase data searchQuery) := by
  unfold fetchData
  rw [foldlM_eq_ok_append _
    (fun domain : Domain =>
      (domain.industries.filter (fun industry =>
        decide (industryMatchedKPIs toLowerCase searchQuery industry ≠ [] ∨
          industryMatchedUseCases toLowerCase searchQuery industry ≠ []))).map
        (industryResult toLowerCase searchQuery))]
  · simp [searchResult, allIndustries, filter_flatMap, List.map_flatMap]
  intro acc domain
  rw [← flatMap_ite_singleton]
  refine foldlM_eq_ok_append _ _ (fun acc industry => ?_) _ _
  dsimp only
  rw [foldlM_eq_ok_append_pair _
    (fun classification : Classification =>
      classification.departments.flatMap (fun department =>
        department.subdepartments.flatMap (fun subdepartment =>
          (subdepartment.kpicollection.filter
            (fun kpi => matchesQuery toLowerCase searchQuery kpi.kpi)).map
            (annotate subdepartment))))
    (fun classification : Classification =>
      classification.departments.flatMap (fun department =>
        department.subdepartments.flatMap (fun subdepartment =>
          subdepartment.usecases.filter (usecaseNameContains toLowerCase searchQuery))))]
  · simp only [industryMatchedKPIs, industryMatchedUseCases, industrySubdepartments_flatMap,
      industryResult, bind, Except.bind, pure, Except.pure, List.nil_append, push,
      List.length_pos, decide_eq_true_eq]
    split <;> simp
  intro acc classification
  refine foldlM_eq_ok_append_pair _ _ _ (fun acc department => ?_) _ _
  refine foldlM_eq_ok_append_pair _ _ _ (fun acc subdepartment => ?_) _ _
  dsimp only
  rw [foldlM_eq_ok_append _
    (fun usecaseObj : UseCase =>
      if usecaseNameContains toLowerCase searchQuery usecaseObj then [usecaseObj] else []),
    foldl_eq_append_flatMap _
    (fun kpi : KPI =>
      if matchesQuery toLowerCase searchQuery kpi.kpi then [annotate subdepartment kpi] else [])]
  · simp [flatMap_ite_singleton, bind, Except.bind, pure, Except.pure]
  · intro acc kpi
    by_cases h : includes (toLowerCase kpi.kpi) (toLowerCase searchQuery) = true <;>
      simp [matchesQuery, push, annotate, h]
  · intro acc usecaseObj
    rw [usecaseMatches_eq]
    by_cases h : usecaseNameContains toLowerCase searchQuery usecaseObj = true <;>
      simp [bind, Except.bind, pure, Except.pure, push, h]

/-! ## Domain aggregator: lemmas -/

theorem getOwn_tabulate (names : List Str) (v : Str → List Industry) (key : Str) :
    JSObject.getOwn (tabulate names v) key =
      if key ∈ names then some { industries := v key } else none := by
  induction names with
  | nil => simp [tabulate, JSObject.getOwn]
  | cons n names ih =>
    unfold tabulate at ih ⊢
    simp only [List.map_cons, JSObject.getOwn, List.mem_cons, ih]
    by_cases h : n = key
    · simp [h]
    · have h2 : ¬ key = n := fun e => h e.symm
      simp [h, h2]

theorem tabulate_congr (names : List Str) (v w : Str → List Industry)
    (h : ∀ name ∈ names, v name = w name) : tabulate names v = tabulate names w := by
  unfold tabulate
  apply List.map_congr_left
  intro name hn
  rw [h name hn]

theorem set_tabulate_of_mem (names : List Str) (v : Str → List Industry) (key : Str)
    (industries : List Industry) (h : key ∈ names) (hnd : names.Nodup) :
    JSObject.set (tabulate names v) key { industries := industries } =
      tabulate names (fun name => if name = key then industries else v name) := by
  induction names with
  | nil => simp at h
  | cons n names ih =>
    have hn : n ∉ names := (List.nodup_cons.mp hnd).1
    by_cases hk : n = key
    · subst hk
      have : tabulate names (fun name => if name = n then industries else v name) =
          tabulate names v :=
        tabulate_congr _ _ _ (fun name hname => by
          have : name ≠ n := fun e => hn (e ▸ hname)
          simp [this])
      simp only [tabulate, List.map_cons, JSObject.set, if_true] at this ⊢
      rw [this]
    · have hmem : key ∈ names := by
        rcases List.mem_cons.mp h with h | h
        · exact absurd h.symm hk
        · exact h
      have ih2 := ih hmem (List.nodup_cons.mp hnd).2
      simp only [tabulate, List.map_cons, JSObject.set, hk, if_false] at ih2 ⊢
      rw [ih2]

theorem set_tabulate_of_not_mem (names : List Str) (v : Str → List Industry) (key : Str)
    (group : Group) (h : key ∉ names) :
    JSObject.set (tabulate names v) key group = tabulate names v ++ [(key, group)] := by
  induction names with
  | nil => rfl
  | cons n names ih =>
    have hk : ¬ n = key := fun e => h (e ▸ List.mem_cons_self _ _)
    have ih2 := ih (fun hm => h (List.mem_cons_of_mem _ hm))
    simp only [tabulate, List.map_cons, JSObject.set, hk, if_false, List.cons_append] at ih2 ⊢
    rw [ih2]

theorem tabulate_append_singleton (names : List Str) (v : Str → List Industry) (key : Str) :
    tabulate (names ++ [key]) v = tabulate names v ++ [(key, { industries := v key })] := by
  simp [tabulate]

theorem aggregateEntry_tabulate (names : List Str) (v : Str → List Industry) (entry : Domain)
    (hnd : names.Nodup) (hp : entry.domain ∉ objectPrototypeKeys)
    (hv : ∀ name, name ∉ names → v name = []) :
    aggregateEntry (tabulate names v) entry =
      .ok (tabulate (if entry.domain ∈ names then names else names ++ [entry.domain])
        (fun name => if name = entry.domain then v name ++ entry.industries else v name)) := by
  unfold aggregateEntry
  by_cases hm : entry.domain ∈ names
  · have hget : JSObject.get (tabulate names v) entry.domain =
        .own { industries := v entry.domain } := by
      simp [JSObject.get, getOwn_tabulate, hm]
    simp only [hget, Lookup.truthy, Bool.not_true, Bool.false_eq_true, if_false, hm, if_true,
      pure, Except.pure]
    rw [set_tabulate_of_mem _ _ _ _ hm hnd]
    congr 1
    apply tabulate_congr
    intro name _
    by_cases hn : name = entry.domain <;> simp [hn]
  · have hget : JSObject.get (tabulate names v) entry.domain = .undefined := by
      simp [JSObject.get, getOwn_tabulate, hm, hp]
    have hnd2 : (names ++ [entry.domain]).Nodup := by
      refine List.Nodup.append hnd (List.nodup_singleton _) ?_
      simp only [List.Disjoint, List.mem_singleton]
      intro a ha hax
      exact hm (hax ▸ ha)
    have hset : JSObject.set (tabulate names v) entry.domain { industries := [] } =
        tabulate (names ++ [entry.domain]) v := by
      rw [set_tabulate_of_not_mem _ _ _ _ hm, tabulate_append_singleton, hv _ hm]
    have hget2 : JSObject.get (tabulate (names ++ [entry.domain]) v) entry.domain =
        .own { industries := v entry.domain } := by
      simp [JSObject.get, getOwn_tabulate]
    simp only [hget, Lookup.truthy, Bool.not_false, if_true, hset, hget2, hm, if_false,
      pure, Except.pure]
    rw [set_tabulate_of_mem _ _ _ _ (by simp) hnd2]
    congr 1
    apply tabulate_congr
    intro name _
    by_cases hn : name = entry.domain <;> simp [hn]

theorem mem_removeLaterOccurrences (xs : List Str) (s : Str) :
    s ∈ removeLaterOccurrences xs ↔ s ∈ xs := by
  rw [← newSet_eq_removeLaterOccurrences, mem_newSet]

theorem removeLaterOccurrences_nodup (xs : List Str) : (removeLaterOccurrences xs).Nodup := by
  rw [← newSet_eq_removeLaterOccurrences]
  exact newSet_nodup xs

theorem mem_domainNames (data : List Domain) (name : Str) :
    name ∈ domainNames data ↔ ∃ entry ∈ data, entry.domain = name := by
  simp [domainNames, mem_removeLaterOccurrences]

theorem groupIndustries_append_singleton (data : List Domain) (entry : Domain) (name : Str) :
    groupIndustries (data ++ [entry]) name =
      if name = entry.domain then groupIndustries data name ++ entry.industries
      else groupIndustries data name := by
  unfold groupIndustries
  rw [List.filter_append, List.flatMap_append]
  by_cases h : name = entry.domain
  · simp [h]
  · have h2 : ¬ entry.domain = name := fun e => h e.symm
    simp [h, h2]

theorem groupIndustries_of_not_mem (data : List Domain) (name : Str)
    (h : name ∉ domainNames data) : groupIndustries data name = [] := by
  unfold groupIndustries
  have : data.filter (fun entry => decide (entry.domain = name)) = [] := by
    rw [List.filter_eq_nil_iff]
    intro entry he
    simp only [decide_eq_true_eq]
    intro hd
    exact h ((mem_domainNames _ _).mpr ⟨entry, he, hd⟩)
  rw [this]
  rfl

theorem foldlM_aggregateEntry (data : List Domain)
    (hp : ∀ entry ∈ data, entry.domain ∉ objectPrototypeKeys) :
    data.foldlM aggregateEntry [] =
      .ok (tabulate (domainNames data) (groupIndustries data)) := by
  induction data using List.reverseRecOn with
  | nil => rfl
  | append_singleton data entry ih =>
    have ih2 := ih (fun e he => hp e (List.mem_append_left _ he))
    have hpe := hp entry (List.mem_append_right _ (List.mem_singleton_self _))
    rw [List.foldlM_append, ih2]
    simp only [bind, Except.bind, List.foldlM_cons, List.foldlM_nil]
    rw [aggregateEntry_tabulate (domainNames data) _ _ (removeLaterOccurrences_nodup _) hpe
      (groupIndustries_of_not_mem data)]
    simp only [pure, Except.pure]
    congr 1
    have hnames : (if entry.domain ∈ domainNames data then domainNames data
        else domainNames data ++ [entry.domain]) = domainNames (data ++ [entry]) := by
      simp only [domainNames, List.map_append, List.map_cons, List.map_nil,
        removeLaterOccurrences_append_singleton, mem_removeLaterOccurrences]
    rw [hnames]
    apply tabulate_congr
    intro name _
    rw [groupIndustries_append_singleton]

theorem mem_keyOrder (keys : List Str) (key : Str) : key ∈ keyOrder keys ↔ key ∈ keys := by
  simp only [keyOrder, List.mem_append, List.mem_insertionSort, List.mem_filter]
  cases (arrayIndex? key).isSome <;> simp

theorem objectEntries_tabulate (names : List Str) (v : Str → List Industry) :
    objectEntries (tabulate names v) =
      (keyOrder names).map (fun name => (name, { industries := v name })) := by
  unfold objectEntries
  have hfst : (tabulate names v).map Prod.fst = names := by
    simp [tabulate, Function.comp_def]
  rw [hfst]
  have : ∀ l : List Str, (∀ key ∈ l, key ∈ names) →
      l.filterMap (fun key =>
        (JSObject.getOwn (tabulate names v) key).map (fun group => (key, group))) =
      l.map (fun name => (name, ({ industries := v name } : Group))) := by
    intro l hl
    induction l with
    | nil => rfl
    | cons k l ih =>
      have hk := hl k (List.mem_cons_self _ _)
      rw [List.filterMap_cons, getOwn_tabulate]
      simp only [hk, if_true, Option.map_some', List.map_cons]
      rw [ih (fun key hkey => hl key (List.mem_cons_of_mem _ hkey))]
  exact this _ (fun key hkey => (mem_keyOrder _ _).mp hkey)

theorem aggregateData_eq (data : List Domain)
    (hp : ∀ entry ∈ data, entry.domain ∉ objectPrototypeKeys) :
    aggregateData data = .ok (keyOrderGroups data) := by
  unfold aggregateData
  simp only [foldlM_aggregateEntry data hp, bind, Except.bind, pure, Except.pure,
    objectEntries_tabulate, keyOrderGroups, List.map_map]
  rfl

/-! ## Slug: lemmas -/

theorem replaceWhiteSpaceRunsFrom_no_whiteSpace (inMatch : Bool) (s : Str) :
    ∀ c ∈ replaceWhiteSpaceRunsFrom inMatch s, isWhiteSpace c = false := by
  induction s generalizing inMatch with
  | nil => simp [replaceWhiteSpaceRunsFrom]
  | cons c s ih =>
    unfold replaceWhiteSpaceRunsFrom
    by_cases hc : isWhiteSpace c = true
    · cases inMatch
      · simp only [hc, if_true, Bool.false_eq_true, if_false, List.mem_cons]
        rintro x (hx | hx)
        · subst hx
          decide
        · exact ih true x hx
      · simp only [hc, if_true]
        exact ih true
    · rw [if_neg hc]
      intro x hx
      rcases List.mem_cons.mp hx with h | h
      · subst h
        simpa using hc
      · exact ih false x h

theorem replaceWhiteSpaceRunsFrom_true (w rest : Str) (hw : ∀ c ∈ w, isWhiteSpace c = true)
    (hrest : ∀ c, rest.head? = some c → isWhiteSpace c = false) :
    replaceWhiteSpaceRunsFrom true (w ++ rest) = replaceWhiteSpaceRunsFrom false rest := by
  induction w with
  | nil =>
    cases rest with
    | nil => rfl
    | cons c rest =>
      have := hrest c rfl
      simp [replaceWhiteSpaceRunsFrom, this]
  | cons c w ih =>
    have hc := hw c (List.mem_cons_self _ _)
    simp only [List.cons_append, replaceWhiteSpaceRunsFrom, hc, if_true]
    exact ih (fun x hx => hw x (List.mem_cons_of_mem _ hx))

theorem replaceWhiteSpaceRuns_run (w rest : Str) (hne : w ≠ [])
    (hw : ∀ c ∈ w, isWhiteSpace c = true)
    (hrest : ∀ c, rest.head? = some c → isWhiteSpace c = false) :
    replaceWhiteSpaceRuns (w ++ rest) = '-' :: replaceWhiteSpaceRuns rest := by
  cases w with
  | nil => exact absurd rfl hne
  | cons c w =>
    have hc := hw c (List.mem_cons_self _ _)
    simp only [replaceWhiteSpaceRuns, List.cons_append, replaceWhiteSpaceRunsFrom, hc, if_true,
      Bool.false_eq_true, if_false]
    exact congrArg _
      (replaceWhiteSpaceRunsFrom_true w rest (fun x hx => hw x (List.mem_cons_of_mem _ hx)) hrest)

theorem replaceWhiteSpaceRuns_other (c : Char) (rest : Str) (hc : isWhiteSpace c = false) :
    replaceWhiteSpaceRuns (c :: rest) = c :: replaceWhiteSpaceRuns rest := by
  simp [replaceWhiteSpaceRuns, replaceWhiteSpaceRunsFrom, hc]

/-! ## Search engine: consequences of the refinement -/

theorem hasMatch_iff_ne_nil (toLowerCase : Str → Str) (query : Str) (industry : Industry) :
    hasMatch toLowerCase query industry = true ↔
      (industryMatchedKPIs toLowerCase query industry ≠ [] ∨
        industryMatchedUseCases toLowerCase query industry ≠ []) := by
  simp only [hasMatch, industryMatchedKPIs, industryMatchedUseCases, List.any_eq_true,
    Bool.or_eq_true, ne_eq, List.flatMap_eq_nil_iff, List.map_eq_nil_iff, List.filter_eq_nil_iff,
    not_forall, Classical.not_not, exists_prop]
  constructor
  · rintro ⟨sub, hsub, h | h⟩
    · exact Or.inl ⟨sub, hsub, h⟩
    · exact Or.inr ⟨sub, hsub, h⟩
  · rintro (⟨sub, hsub, h⟩ | ⟨sub, hsub, h⟩)
    · exact ⟨sub, hsub, Or.inl h⟩
    · exact ⟨sub, hsub, Or.inr h⟩

theorem usecaseNameContains_iff (toLowerCase : Str → Str) (query : Str) (usecaseObj : UseCase) :
    usecaseNameContains toLowerCase query usecaseObj = true ↔
      ∃ s, usecaseObj.usecase = JSValue.string s ∧ ContainsIgnoreCase toLowerCase s query := by
  unfold usecaseNameContains
  cases h : usecaseObj.usecase <;> simp [matchesQuery_iff]

theorem hasMatch_iff (toLowerCase : Str → Str) (query : Str) (industry : Industry) :
    hasMatch toLowerCase query industry = true ↔ HasMatch toLowerCase query industry := by
  simp only [hasMatch, HasMatch, List.any_eq_true, Bool.or_eq_true, matchesQuery_iff,
    usecaseNameContains_iff]

theorem searchResult_eq (toLowerCase : Str → Str) (data : List Domain) (query : Str) :
    searchResult toLowerCase data query =
      ((allIndustries data).filter (hasMatch toLowerCase query)).map
        (industryResult toLowerCase query) := by
  unfold searchResult
  congr 1
  apply List.filter_congr
  intro industry _
  rw [Bool.eq_iff_iff, decide_eq_true_iff, hasMatch_iff_ne_nil]

theorem forall₂_map_self {α β : Type} (R : α → β → Prop) (f : α → β) (l : List α)
    (h : ∀ x ∈ l, R x (f x)) : List.Forall₂ R l (l.map f) := by
  induction l with
  | nil => exact List.Forall₂.nil
  | cons x l ih =>
    exact List.Forall₂.cons (h x (List.mem_cons_self _ _))
      (ih (fun y hy => h y (List.mem_cons_of_mem _ hy)))

theorem mem_searchResult (toLowerCase : Str → Str) (data : List Domain) (query : Str)
    (result : IndustryResult) :
    result ∈ searchResult toLowerCase data query ↔
      ∃ industry ∈ allIndustries data, hasMatch toLowerCase query industry = true ∧
        result = industryResult toLowerCase query industry := by
  rw [searchResult_eq, List.mem_map]
  constructor
  · rintro ⟨industry, hi, rfl⟩
    rw [List.mem_filter] at hi
    exact ⟨industry, hi.1, hi.2, rfl⟩
  · rintro ⟨industry, hi, hm, rfl⟩
    exact ⟨industry, List.mem_filter.mpr ⟨hi, hm⟩, rfl⟩

theorem isLabel_of_kpi (data : List Domain) (industry : Industry)
    (subdepartment : Subdepartment) (kpi : KPI) (hi : industry ∈ allIndustries data)
    (hs : subdepartment ∈ industrySubdepartments industry)
    (hk : kpi ∈ subdepartment.kpicollection) : IsLabel data kpi.kpi := by
  simp only [allIndustries, List.mem_flatMap] at hi
  simp only [industrySubdepartments, List.mem_flatMap] at hs
  obtain ⟨domain, hd, hi⟩ := hi
  obtain ⟨classification, hc, department, hdep, hs⟩ := hs
  exact ⟨domain, hd, industry, hi, Or.inr ⟨classification, hc, department, hdep,
    Or.inr ⟨subdepartment, hs, Or.inr ⟨kpi, hk, rfl⟩⟩⟩⟩

/-! ## Domain aggregator: consequences of the refinement -/

theorem keyOrder_of_no_index (names : List Str) (h : ∀ name ∈ names, arrayIndex? name = none) :
    keyOrder names = names := by
  unfold keyOrder
  have h1 : names.filter (fun key => (arrayIndex? key).isSome) = [] := by
    rw [List.filter_eq_nil_iff]
    intro name hn
    simp [h name hn]
  have h2 : names.filter (fun key => !(arrayIndex? key).isSome) = names := by
    rw [List.filter_eq_self]
    intro name hn
    simp [h name hn]
  rw [h1, h2]
  rfl

theorem keyOrder_perm (names : List Str) : (keyOrder names).Perm names := by
  unfold keyOrder
  exact ((List.perm_insertionSort keyLE _).append_right _).trans
    (List.filter_append_perm (fun key => (arrayIndex? key).isSome) names)

theorem flatMap_ite_eq (names : List Str) (key : Str) (industries : List Industry)
    (hmem : key ∈ names) (hnd : names.Nodup) :
    names.flatMap (fun name => if key = name then industries else []) = industries := by
  induction names with
  | nil => simp at hmem
  | cons n names ih =>
    have hn : n ∉ names := (List.nodup_cons.mp hnd).1
    rw [List.flatMap_cons]
    by_cases hk : key = n
    · subst hk
      have : names.flatMap (fun name => if key = name then industries else []) = [] := by
        rw [List.flatMap_eq_nil_iff]
        intro name hname
        have : key ≠ name := fun e => hn (e ▸ hname)
        simp [this]
      simp [this]
    · have hmem2 : key ∈ names := by
        rcases List.mem_cons.mp hmem with h | h
        · exact absurd h hk
        · exact h
      simp [hk, ih hmem2 (List.nodup_cons.mp hnd).2]

theorem flatMap_groupIndustries_perm (data : List Domain) (names : List Str)
    (hnd : names.Nodup) (hall : ∀ entry ∈ data, entry.domain ∈ names) :
    (names.flatMap (groupIndustries data)).Perm (allIndustries data) := by
  induction data with
  | nil =>
    have : names.flatMap (groupIndustries []) = [] := by
      rw [List.flatMap_eq_nil_iff]
      intro name _
      rfl
    rw [this]
    exact List.Perm.refl _
  | cons entry data ih =>
    have hfun : groupIndustries (entry :: data) =
        fun name => (if entry.domain = name then entry.industries else []) ++
          groupIndustries data name := by
      funext name
      unfold groupIndustries
      by_cases h : entry.domain = name <;> simp [List.filter_cons, h]
    rw [hfun]
    refine (List.flatMap_append_perm names _ _).symm.trans ?_
    rw [flatMap_ite_eq names entry.domain entry.industries
      (hall entry (List.mem_cons_self _ _)) hnd]
    exact List.Perm.append_left _ (ih (fun e he => hall e (List.mem_cons_of_mem _ he)))

/-- Away from the property names inherited from `Object.prototype`, the groups
of the aggregator hold every industry occurrence of the dataset exactly
once. -/
theorem aggregateData_perm (data : List Domain)
    (hp : ∀ entry ∈ data, entry.domain ∉ objectPrototypeKeys) :
    ∃ groups, aggregateData data = .ok groups ∧
      (groups.flatMap (fun group => group.industries)).Perm (allIndustries data) := by
  refine ⟨_, aggregateData_eq data hp, ?_⟩
  have h : (keyOrderGroups data).flatMap (fun group => group.industries) =
      (keyOrder (domainNames data)).flatMap (groupIndustries data) := by
    simp [keyOrderGroups, List.flatMap_map, categoryOf]
  rw [h]
  exact ((keyOrder_perm _).flatMap_right _).trans
    (flatMap_groupIndustries_perm data _ (removeLaterOccurrences_nodup _)
      (fun entry he => (mem_domainNames _ _).mpr ⟨entry, he, rfl⟩))

/-! ## The claims -/

/-- C1: a string is among the suggestions for a query exactly when it is the
name of some industry, department, subdepartment or KPI of the dataset and its
lower-cased form contains the lower-cased query; so every suggestion contains
the query case-insensitively, and a use-case name that is not also one of those
names is never suggested. -/
theorem getSuggestions_mem_iff (toLowerCase : Str → Str) (data : List Domain) (query : Str) :
    (∀ s, s ∈ getSuggestions toLowerCase data query ↔
      IsLabel data s ∧ ContainsIgnoreCase toLowerCase s query) ∧
    (∀ s ∈ getSuggestions toLowerCase data query, ContainsIgnoreCase toLowerCase s query) ∧
    (∀ s, IsUseCaseName data s → ¬ IsLabel data s →
      s ∉ getSuggestions toLowerCase data query) :=
  ⟨fun s => mem_getSuggestions toLowerCase data query s,
   fun s hs => ((mem_getSuggestions toLowerCase data query s).mp hs).2,
   fun s _ hl hs => hl ((mem_getSuggestions toLowerCase data query s).mp hs).1⟩

/-- C2: the suggestions have no duplicate values and are the traversal-order
list of the matching labels with every occurrence after the first of each
string removed. -/
theorem getSuggestions_first_seen_order (toLowerCase : Str → Str) (data : List Domain)
    (query : Str) :
    (getSuggestions toLowerCase data query).Nodup ∧
    getSuggestions toLowerCase data query =
      removeLaterOccurrences ((traversalLabels data).filter
        (fun s => decide (ContainsIgnoreCase toLowerCase s query))) := by
  have hf : (traversalLabels data).filter (matchesQuery toLowerCase query) =
      (traversalLabels data).filter
        (fun s => decide (ContainsIgnoreCase toLowerCase s query)) := by
    apply List.filter_congr
    intro s _
    rw [Bool.eq_iff_iff, decide_eq_true_iff, matchesQuery_iff]
  rw [getSuggestions_eq, hf]
  exact ⟨newSet_nodup _, newSet_eq_removeLaterOccurrences _⟩

/-- C3, as stated, fails: called directly on the sample dataset, the suggestion
engine returns every label for the empty query, and the KPI name, which holds a
space, for the query of one space. -/
theorem getSuggestions_blank_nonempty :
    trim "".toList = [] ∧
    getSuggestions asciiLowerCase sampleData "".toList =
      ["Banking".toList, "Lending".toList, "Retail".toList, "Net Interest Margin".toList] ∧
    trim " ".toList = [] ∧
    getSuggestions asciiLowerCase sampleData " ".toList = ["Net Interest Margin".toList] := by
  decide

/-- C3, amended: for a query that is empty or white space only, the input
handler stores the query and the empty suggestion list; the engine called
directly applies its general rule to such a query, and when the lower-cased
query is empty it returns every label of the dataset, deduplicated. -/
theorem handleInputChange_blank (toLowerCase : Str → Str) (data : List Domain) (query : Str)
    (hblank : trim query = []) :
    handleInputChange toLowerCase data query = { searchQuery := query, suggestions := [] } ∧
    (∀ s, s ∈ getSuggestions toLowerCase data query ↔
      IsLabel data s ∧ ContainsIgnoreCase toLowerCase s query) ∧
    (toLowerCase query = [] →
      getSuggestions toLowerCase data query = removeLaterOccurrences (traversalLabels data)) := by
  refine ⟨by simp [handleInputChange, hblank],
    fun s => mem_getSuggestions toLowerCase data query s, fun hq => ?_⟩
  rw [getSuggestions_eq, newSet_eq_removeLaterOccurrences]
  congr 1
  rw [List.filter_eq_self]
  intro s _
  rw [matchesQuery_iff, ContainsIgnoreCase, hq]
  exact List.nil_infix

/-- C3, amended, at the query of two spaces over the sample dataset. -/
theorem handleInputChange_blank_witness :
    trim "  ".toList = [] ∧
    handleInputChange asciiLowerCase sampleData "  ".toList =
      { searchQuery := "  ".toList, suggestions := [] } :=
  ⟨by decide, (handleInputChange_blank asciiLowerCase sampleData "  ".toList (by decide)).1⟩

/-- C4: the search returns a result, and the industry names in it are those of
the industries of the dataset, in traversal order, that have a KPI whose name
contains the query or a use case whose name is a string containing it; every
result has a matched KPI or a matched use case. -/
theorem fetchData_industries (toLowerCase : Str → Str) (data : List Domain) (query : Str) :
    ∃ results, fetchData toLowerCase data query = .ok results ∧
      results.map (fun result => result.industry) =
        ((allIndustries data).filter (hasMatch toLowerCase query)).map
          (fun industry => industry.industry) ∧
      (∀ industry, hasMatch toLowerCase query industry = true ↔
        HasMatch toLowerCase query industry) ∧
      (∀ result ∈ results, result.matchedKPIs ≠ [] ∨ result.matchedUseCases ≠ []) := by
  refine ⟨_, fetchData_eq toLowerCase data query, ?_, hasMatch_iff toLowerCase query, ?_⟩
  · rw [searchResult_eq, List.map_map]
    rfl
  · intro result hr
    obtain ⟨industry, _, hm, rfl⟩ := (mem_searchResult _ _ _ _).mp hr
    exact (hasMatch_iff_ne_nil _ _ _).mp hm

/-- C5, as stated, fails: in the dataset where the subdepartment General of the
department Lending and the subdepartment General of the department Cards, two
different records, each hold a KPI named Churn Rate, the search for churn
returns two entries for that name and both carry the same subdepartment
annotation, General. -/
theorem fetchData_same_subdepartment_name :
    (allIndustries sameSubdepartmentName).flatMap industrySubdepartments =
      [{ subdepartment := "General".toList,
         kpicollection := [mkKPI "Churn Rate"], usecases := [] },
       { subdepartment := "General".toList,
         kpicollection := [mkKPI "Churn Rate", mkKPI "Spend"], usecases := [] }] ∧
    ({ subdepartment := "General".toList,
       kpicollection := [mkKPI "Churn Rate"], usecases := [] } : Subdepartment) ≠
      { subdepartment := "General".toList,
        kpicollection := [mkKPI "Churn Rate", mkKPI "Spend"], usecases := [] } ∧
    fetchData asciiLowerCase sameSubdepartmentName "churn".toList =
      .ok [{ industry := "Banking".toList,
             matchedKPIs :=
              [{ kpi := "Churn Rate".toList, formula := [], explanation := [],
                 subdepartment := "General".toList },
               { kpi := "Churn Rate".toList, formula := [], explanation := [],
                 subdepartment := "General".toList }],
             matchedUseCases := [] }] := by
  decide

/-- C5, amended: each result of the search carries, as matched KPIs, the KPIs
of the subdepartments of its industry whose name contains the query, in
traversal order and without deduplication (there is one entry for each matching
KPI of each subdepartment), each with its own fields and the name of the
subdepartment that owns it; the entries of two KPIs with the same name carry
different subdepartment annotations exactly when the names of their two
subdepartments differ. -/
theorem fetchData_matchedKPIs (toLowerCase : Str → Str) (data : List Domain) (query : Str) :
    (∃ results, fetchData toLowerCase data query = .ok results ∧
      List.Forall₂
        (fun industry result =>
          result.industry = industry.industry ∧
          result.matchedKPIs = industryMatchedKPIs toLowerCase query industry)
        ((allIndustries data).filter (hasMatch toLowerCase query)) results) ∧
    (∀ industry,
      (industryMatchedKPIs toLowerCase query industry).length =
        ((industrySubdepartments industry).map (fun subdepartment =>
          (subdepartment.kpicollection.filter
            (fun kpi => decide (ContainsIgnoreCase toLowerCase kpi.kpi query))).length)).sum) ∧
    (∀ subdepartment kpi,
      (annotate subdepartment kpi).kpi = kpi.kpi ∧
      (annotate subdepartment kpi).formula = kpi.formula ∧
      (annotate subdepartment kpi).explanation = kpi.explanation ∧
      (annotate subdepartment kpi).subdepartment = subdepartment.subdepartment) ∧
    (∀ (first second : Subdepartment) (kpi₁ kpi₂ : KPI),
      ((annotate first kpi₁).subdepartment ≠ (annotate second kpi₂).subdepartment ↔
        first.subdepartment ≠ second.subdepartment)) ∧
    fetchData asciiLowerCase repeatedKpi "churn".toList =
      .ok [{ industry := "Banking".toList,
             matchedKPIs :=
              [{ kpi := "Churn Rate".toList, formula := [], explanation := [],
                 subdepartment := "Retail".toList },
               { kpi := "Churn Rate".toList, formula := [], explanation := [],
                 subdepartment := "Corporate".toList }],
             matchedUseCases := [] }] := by
  refine ⟨⟨_, fetchData_eq toLowerCase data query, ?_⟩, ?_, fun _ _ => ⟨rfl, rfl, rfl, rfl⟩,
    fun _ _ _ _ => Iff.rfl, ?_⟩
  · rw [searchResult_eq]
    exact forall₂_map_self _ _ _ (fun _ _ => ⟨rfl, rfl⟩)
  · intro industry
    have hf : ∀ subdepartment : Subdepartment,
        subdepartment.kpicollection.filter
          (fun kpi => decide (ContainsIgnoreCase toLowerCase kpi.kpi query)) =
        subdepartment.kpicollection.filter
          (fun kpi => matchesQuery toLowerCase query kpi.kpi) := by
      intro subdepartment
      apply List.filter_congr
      intro kpi _
      rw [Bool.eq_iff_iff, decide_eq_true_iff, matchesQuery_iff]
    simp only [hf, industryMatchedKPIs]
    generalize industrySubdepartments industry = subdepartments
    induction subdepartments with
    | nil => rfl
    | cons subdepartment rest ih =>
      simp only [List.flatMap_cons, List.length_append, List.length_map, List.map_cons,
        List.sum_cons, ih]
  · decide

/-- C6: on a dataset whose use cases may carry a name that is not a string, the
search returns a result without raising; each result carries, as matched use
cases, the use-case records of its industry whose name is a string containing
the query, in traversal order; a use case whose name is not a string is in no
result. -/
theorem fetchData_matchedUseCases (toLowerCase : Str → Str) (data : List Domain)
    (query : Str) :
    (∃ results, fetchData toLowerCase data query = .ok results ∧
      List.Forall₂
        (fun industry result =>
          result.industry = industry.industry ∧
          result.matchedUseCases = industryMatchedUseCases toLowerCase query industry)
        ((allIndustries data).filter (hasMatch toLowerCase query)) results ∧
      (∀ result ∈ results, ∀ usecaseObj ∈ result.matchedUseCases,
        ∃ s, usecaseObj.usecase = JSValue.string s ∧
          ContainsIgnoreCase toLowerCase s query)) ∧
    fetchData asciiLowerCase sampleData "1".toList = .ok [] := by
  refine ⟨⟨_, fetchData_eq toLowerCase data query, ?_, ?_⟩, by decide⟩
  · rw [searchResult_eq]
    exact forall₂_map_self _ _ _ (fun _ _ => ⟨rfl, rfl⟩)
  · intro result hr usecaseObj hu
    obtain ⟨industry, _, _, rfl⟩ := (mem_searchResult _ _ _ _).mp hr
    simp only [industryResult, industryMatchedUseCases, List.mem_flatMap, List.mem_filter] at hu
    obtain ⟨_, _, _, hm⟩ := hu
    exact (usecaseNameContains_iff _ _ _).mp hm

/-- C7, at a failing input: for the dataset of one domain record named
constructor, with one industry, the aggregator raises a `TypeError` and returns
no group. -/
theorem aggregateData_inherited_name :
    aggregateData inheritedName = .error JSError.TypeError := by
  decide

/-- C8, as stated, fails: for a record named 2 followed by a record named 1 the
aggregator returns the group of 1 before the group of 2, which is not the order
of first occurrence. -/
theorem aggregateData_numeric_names :
    aggregateData numericNames =
      .ok [{ domain := "1".toList, industries := [mkIndustry "Retail"] },
           { domain := "2".toList, industries := [mkIndustry "Banking"] }] ∧
    aggregateData numericNames ≠ .ok (firstSeenGroups numericNames) := by
  decide

/-- C8, amended: on a dataset none of whose domain names is a property name
inherited from `Object.prototype`, the aggregator returns one group per
distinct domain name, the groups whose name is an array index first, in
ascending numeric order, then the other groups in the order of first
occurrence of their name, and the industries of each group are the
concatenation, in record order, of the industries of the records bearing its
name; when no domain name is an array index the order is that of first
occurrence. -/
theorem aggregateData_key_order (data : List Domain)
    (hp : ∀ entry ∈ data, entry.domain ∉ objectPrototypeKeys) :
    aggregateData data = .ok ((keyOrder (domainNames data)).map (categoryOf data)) ∧
    ((∀ entry ∈ data, arrayIndex? entry.domain = none) →
      aggregateData data = .ok (firstSeenGroups data)) := by
  refine ⟨aggregateData_eq data hp, fun hidx => ?_⟩
  rw [aggregateData_eq data hp, keyOrderGroups, firstSeenGroups, keyOrder_of_no_index]
  intro name hn
  obtain ⟨entry, he, rfl⟩ := (mem_domainNames _ _).mp hn
  exact hidx entry he

/-- C8, amended, at the dataset of a record named 2 followed by one named 1. -/
theorem aggregateData_key_order_witness :
    (∀ entry ∈ numericNames, entry.domain ∉ objectPrototypeKeys) ∧
    aggregateData numericNames =
      .ok ((keyOrder (domainNames numericNames)).map (categoryOf numericNames)) :=
  ⟨by decide, (aggregateData_key_order numericNames (by decide)).1⟩

/-- C9: the slug of a name is its lower-cased form with every maximal run of
white space replaced by one hyphen, in the search page and in the sidebar
alike; the two names of the specification give the slugs it states, and no
slug contains a white space character. -/
theorem getMainTopic_slug :
    getMainTopic asciiLowerCase "Financial Services".toList = "financial-services".toList ∧
    getMainTopic asciiLowerCase "  Multi   Space ".toList = "-multi-space-".toList ∧
    (∀ (toLowerCase : Str → Str) (name : Str),
      sidebarSlug toLowerCase name = getMainTopic toLowerCase name ∧
      getMainTopic toLowerCase name = replaceWhiteSpaceRuns (toLowerCase name) ∧
      ∀ c ∈ getMainTopic toLowerCase name, isWhiteSpace c = false) ∧
    replaceWhiteSpaceRuns [] = [] ∧
    (∀ (c : Char) (rest : Str), isWhiteSpace c = false →
      replaceWhiteSpaceRuns (c :: rest) = c :: replaceWhiteSpaceRuns rest) ∧
    (∀ (run rest : Str), run ≠ [] → (∀ c ∈ run, isWhiteSpace c = true) →
      (∀ c, rest.head? = some c → isWhiteSpace c = false) →
      replaceWhiteSpaceRuns (run ++ rest) = '-' :: replaceWhiteSpaceRuns rest) :=
  ⟨by decide, by decide,
   fun toLowerCase name =>
    ⟨rfl, rfl, replaceWhiteSpaceRunsFrom_no_whiteSpace false (toLowerCase name)⟩,
   rfl, replaceWhiteSpaceRuns_other, replaceWhiteSpaceRuns_run⟩

/-- C10: the search returns a result, and the name of every matched KPI in it is
among the suggestions for the same query over the same dataset. -/
theorem matchedKPIs_subset_getSuggestions (toLowerCase : Str → Str) (data : List Domain)
    (query : Str) :
    ∃ results, fetchData toLowerCase data query = .ok results ∧
      ∀ result ∈ results, ∀ matched ∈ result.matchedKPIs,
        matched.kpi ∈ getSuggestions toLowerCase data query := by
  refine ⟨_, fetchData_eq toLowerCase data query, ?_⟩
  intro result hr matched hk
  obtain ⟨industry, hi, _, rfl⟩ := (mem_searchResult _ _ _ _).mp hr
  simp only [industryResult, industryMatchedKPIs, List.mem_flatMap, List.mem_map,
    List.mem_filter] at hk
  obtain ⟨subdepartment, hs, kpi, ⟨hkpi, hm⟩, rfl⟩ := hk
  rw [mem_getSuggestions]
  exact ⟨isLabel_of_kpi data industry subdepartment kpi hi hs hkpi,
    (matchesQuery_iff _ _ _).mp hm⟩

end Leaf
